import Mathlib

/-!
Verification of the connect-four board engine (`src/pawn.rs`, `src/game.rs`).

The Rust code is shallowly embedded: the board array `[[Pawn; MAX_COL]; MAX_ROW]`
becomes a total function `Nat → Nat → Pawn` (all accesses made by the program are
in bounds, guarded by the same asserts the source has), `Vec` push becomes list
append, panics (`assert!`, `.unwrap()` on `None`) become `Option`/`Except`
failures, and the iterator pipelines of `is_four_connected` become the
corresponding `List` combinators.
-/

/-- `Pawn` from `src/pawn.rs`: `Red`, `Blue`, `White` (`White` is the empty cell). -/
inductive Pawn where
  | Red : Pawn
  | Blue : Pawn
  | White : Pawn
deriving DecidableEq, Repr

namespace Pawn

/-- `Pawn::switch` from `src/pawn.rs`: red to blue, blue to red, white unchanged.
The Rust method mutates in place; we model it as the pure successor value. -/
def switch : Pawn → Pawn
  | Red => Blue
  | Blue => Red
  | White => White

end Pawn

/-- The board matrix `[[Pawn; MAX_COL]; MAX_ROW]`, as a total function on indices.
Only indices with `row < 6`, `col < 7` are ever read or written by the engine. -/
def Board : Type := Nat → Nat → Pawn

/-- `MAX_ROW` from `src/game.rs`. -/
def MAX_ROW : Nat := 6

/-- `MAX_COL` from `src/game.rs`. -/
def MAX_COL : Nat := 7

/-- `MIN_CONNECT` from `src/game.rs`. -/
def MIN_CONNECT : Nat := 4

/-- `self.board[row][col] = p`: functional update of one cell. -/
def setCell (b : Board) (row col : Nat) (p : Pawn) : Board :=
  fun i j => if i = row ∧ j = col then p else b i j

/-- The `ConnectFour` struct from `src/game.rs` (the view-layer fields are I/O only). -/
structure ConnectFour where
  board : Board
  turn : Pawn
  is_connected : Bool
  is_draw : Bool
  moves_stack : List (Pawn × (Nat × Nat))

namespace ConnectFour

/-- `ConnectFour::new`: all-white board, red to move, both flags clear, empty log. -/
def new : ConnectFour :=
  { board := fun _ _ => Pawn.White
    turn := Pawn.Red
    is_connected := false
    is_draw := false
    moves_stack := [] }

/-- `ConnectFour::is_set`: the cell is occupied (not white). -/
def is_set (g : ConnectFour) (row col : Nat) : Bool :=
  decide (g.board row col ≠ Pawn.White)

/-- `ConnectFour::get_empty_spot` body: `(0..MAX_ROW).rev().find(|&row| !self.is_set(row, col))`.
The `assert!(col < MAX_COL)` is modelled at the call sites (`run_step`). -/
def get_empty_spot (g : ConnectFour) (col : Nat) : Option Nat :=
  ((List.range MAX_ROW).reverse).find? (fun row => !(g.is_set row col))

/-- Rust slice `windows(k)`: all contiguous length-`k` windows, left to right. -/
def windows (k : Nat) (l : List α) : List (List α) :=
  (List.range (l.length + 1 - k)).map (fun i => (l.drop i).take k)

/-- `r.windows(MIN_CONNECT).any(|window| window.iter().all(|&item| item == turn))`. -/
def has_window (turn : Pawn) (l : List Pawn) : Bool :=
  (windows MIN_CONNECT l).any (fun w => w.all (fun item => decide (item = turn)))

/-- The horizontal line `self.board[row]`. -/
def hLine (b : Board) (row : Nat) : List Pawn :=
  (List.range MAX_COL).map (fun j => b row j)

/-- The vertical line `self.board.iter().map(|r| r[col])`. -/
def vLine (b : Board) (col : Nat) : List Pawn :=
  (List.range MAX_ROW).map (fun i => b i col)

/-- The `\`-diagonal extraction of `is_four_connected`: enumerate the board and keep
the cells with `row - i == col - j` (signed arithmetic), in row-major order. -/
def d1Line (b : Board) (row col : Nat) : List Pawn :=
  (List.range MAX_ROW).flatMap (fun i =>
    ((List.range MAX_COL).filter (fun (j : Nat) => decide ((row : Int) - i = (col : Int) - j))).map
      (fun j => b i j))

/-- The `/`-diagonal extraction of `is_four_connected`: cells with `row - i == j - col`. -/
def d2Line (b : Board) (row col : Nat) : List Pawn :=
  (List.range MAX_ROW).flatMap (fun i =>
    ((List.range MAX_COL).filter (fun (j : Nat) => decide ((row : Int) - i = (j : Int) - col))).map
      (fun j => b i j))

/-- `ConnectFour::is_four_connected` body: horizontal and vertical window checks,
then the two diagonal window checks, all against `self.turn`.  The
`assert!` preconditions are modelled at the call sites. -/
def is_four_connected (g : ConnectFour) (row col : Nat) : Bool :=
  (has_window g.turn (hLine g.board row) || has_window g.turn (vLine g.board col)) ||
    (has_window g.turn (d1Line g.board row col) || has_window g.turn (d2Line g.board row col))

/-- `ConnectFour::is_full`: every cell of every row differs from white. -/
def is_full (g : ConnectFour) : Bool :=
  (List.range MAX_ROW).all (fun i => (List.range MAX_COL).all
    (fun j => decide (g.board i j ≠ Pawn.White)))

/-- `ConnectFour::is_over`: `self.is_connected || self.is_draw`. -/
def is_over (g : ConnectFour) : Bool :=
  g.is_connected || g.is_draw

/-- `ConnectFour::place`: push the move, write the cell, recompute `is_connected`
anchored at the placed cell, recompute `is_draw` as `is_full` (no game-over or
emptiness check is performed by the source). -/
def place (g : ConnectFour) (row col : Nat) : ConnectFour :=
  let g' := { g with
    moves_stack := g.moves_stack ++ [(g.turn, (row, col))]
    board := setCell g.board row col g.turn }
  { g' with
    is_connected := g'.is_four_connected row col
    is_draw := g'.is_full }

/-- `place` including its panic behaviour: indexing `board[row][col]` and the two
asserts of `is_four_connected` abort unless `row < MAX_ROW` and `col < MAX_COL`. -/
def place_checked (g : ConnectFour) (row col : Nat) : Option ConnectFour :=
  if row < MAX_ROW ∧ col < MAX_COL then some (g.place row col) else none

/-- `ConnectFour::validate_column_number`: rejects only `col > MAX_COL`
(note: `>`), so `col = MAX_COL` is accepted. -/
def validate_column_number (col : Nat) : Except String Nat :=
  if col > MAX_COL then Except.error "Column number is out of bounds!" else Except.ok col

/-- `game.turn.switch()` at the end of a loop iteration of `run`. -/
def toggle_turn (g : ConnectFour) : ConnectFour :=
  { g with turn := g.turn.switch }

/-- A panic (process abort) of the session loop body, by cause. -/
inductive Panic where
  | assertColOutOfRange : Panic
  | unwrapNoneEmptySpot : Panic
deriving DecidableEq, Repr

/-- One iteration of the body of the `while !game.is_over()` loop in
`ConnectFour::run`, given the column number read from the user:
`validate_column_number` failure `continue`s (state unchanged); otherwise
`game.place(game.get_empty_spot(col).unwrap(), col)` runs — `get_empty_spot`
asserts `col < MAX_COL` and the `.unwrap()` aborts on a full column — and
finally `game.turn.switch()`. -/
def run_step (g : ConnectFour) (col : Nat) : Except Panic ConnectFour :=
  match validate_column_number col with
  | Except.error _ => Except.ok g
  | Except.ok col =>
    if col < MAX_COL then
      match g.get_empty_spot col with
      | none => Except.error Panic.unwrapNoneEmptySpot
      | some row => Except.ok (toggle_turn (g.place row col))
    else
      Except.error Panic.assertColOutOfRange

/-- Run the session loop on a list of (already parsed, in-range) column choices,
performing exactly the successful loop iterations: each step requires the game
not to be over, the column to be in range and not full, and does
`place` then `toggle_turn`.  `none` if some move is not a valid placement. -/
def apply_moves (g : ConnectFour) : List Nat → Option ConnectFour
  | [] => some g
  | col :: rest =>
    if g.is_over then none
    else if col < MAX_COL then
      match g.get_empty_spot col with
      | none => none
      | some row => apply_moves (toggle_turn (g.place row col)) rest
    else none

/-- The announcement after the loop exits: `if game.is_connected` print
`moves_stack.last().unwrap().0` as the winner, else a draw (`none`). -/
def announce_winner (g : ConnectFour) : Option Pawn :=
  if g.is_connected then g.moves_stack.getLast?.map Prod.fst else none

/-- States reachable through the session protocol: start at `ConnectFour::new`;
while the game is not over, a valid iteration places at the row returned by
`get_empty_spot` for an in-range column and then toggles the turn. -/
inductive Reachable : ConnectFour → Prop where
  | init : Reachable ConnectFour.new
  | step {g : ConnectFour} {col row : Nat} : Reachable g → g.is_over = false →
      col < MAX_COL → g.get_empty_spot col = some row →
      Reachable (toggle_turn (g.place row col))

end ConnectFour

section SpecSide

/-! Definitions taken from the specification's words, to be compared with the
code-derived definitions above: line extraction clipped to the grid, the
full-grid four-in-a-row scan, full-board occupancy, and cell counts. -/

open ConnectFour

/-- Spec: the `\`-diagonal through `(row, col)`, clipped to grid bounds,
read top-left to bottom-right. -/
def specD1Line (b : Board) (row col : Nat) : List Pawn :=
  (List.range (min (MAX_ROW - (row - min row col)) (MAX_COL - (col - min row col)))).map
    (fun u => b (row - min row col + u) (col - min row col + u))

/-- Spec: the `/`-diagonal through `(row, col)`, clipped to grid bounds, read
from its topmost (largest-column) end downwards. -/
def specD2Line (b : Board) (row col : Nat) : List Pawn :=
  (List.range (min (MAX_ROW - 1) (row + col) + 1 - (row + col - (MAX_COL - 1)))).map
    (fun u => b (row + col - (MAX_COL - 1) + u) (row + col - (row + col - (MAX_COL - 1) + u)))

/-- Spec: a window of `MIN_CONNECT` consecutive cells of the line `l`, all equal
to the mover's colour `p`, starting at offset `s`. -/
def winWindowAt (p : Pawn) (l : List Pawn) (s : Nat) : Prop :=
  s + MIN_CONNECT ≤ l.length ∧ ∀ t < MIN_CONNECT, l.get? (s + t) = some p

/-- Spec: four in a row eastwards from `(i, j)`, within bounds. -/
def fourE (b : Board) (p : Pawn) (i j : Nat) : Prop :=
  i < MAX_ROW ∧ j + 3 < MAX_COL ∧ ∀ t < 4, b i (j + t) = p

/-- Spec: four in a row southwards from `(i, j)`, within bounds. -/
def fourS (b : Board) (p : Pawn) (i j : Nat) : Prop :=
  i + 3 < MAX_ROW ∧ j < MAX_COL ∧ ∀ t < 4, b (i + t) j = p

/-- Spec: four in a row to the south-east from `(i, j)`, within bounds. -/
def fourSE (b : Board) (p : Pawn) (i j : Nat) : Prop :=
  i + 3 < MAX_ROW ∧ j + 3 < MAX_COL ∧ ∀ t < 4, b (i + t) (j + t) = p

/-- Spec: four in a row to the south-west from `(i, j)`, within bounds. -/
def fourSW (b : Board) (p : Pawn) (i j : Nat) : Prop :=
  i + 3 < MAX_ROW ∧ 3 ≤ j ∧ j < MAX_COL ∧ ∀ t < 4, b (i + t) (j - t) = p

/-- Spec: the grid holds four consecutive cells of colour `p` in some direction. -/
def globalFour (b : Board) (p : Pawn) : Prop :=
  ∃ i < MAX_ROW, ∃ j < MAX_COL, fourE b p i j ∨ fourS b p i j ∨ fourSE b p i j ∨ fourSW b p i j

/-- Spec: a four-in-a-row of either player exists somewhere on the grid
(the from-scratch recomputation of the `connected` flag). -/
def globalConnected (b : Board) : Prop :=
  globalFour b Pawn.Red ∨ globalFour b Pawn.Blue

/-- Spec: the grid is fully occupied (the from-scratch occupancy check). -/
def specFull (b : Board) : Prop :=
  ∀ i < MAX_ROW, ∀ j < MAX_COL, b i j ≠ Pawn.White

/-- All 42 cell positions of the grid, row-major. -/
def gridIdx : List (Nat × Nat) :=
  (List.range MAX_ROW).flatMap (fun i => (List.range MAX_COL).map (fun j => (i, j)))

/-- The number of cells of the grid holding colour `p`. -/
def countCells (b : Board) (p : Pawn) : Nat :=
  (gridIdx.map (fun q => b q.1 q.2)).count p

instance (p : Pawn) (l : List Pawn) (s : Nat) : Decidable (winWindowAt p l s) := by
  unfold winWindowAt; infer_instance

instance (b : Board) (p : Pawn) (i j : Nat) : Decidable (fourE b p i j) := by
  unfold fourE; infer_instance

instance (b : Board) (p : Pawn) (i j : Nat) : Decidable (fourS b p i j) := by
  unfold fourS; infer_instance

instance (b : Board) (p : Pawn) (i j : Nat) : Decidable (fourSE b p i j) := by
  unfold fourSE; infer_instance

instance (b : Board) (p : Pawn) (i j : Nat) : Decidable (fourSW b p i j) := by
  unfold fourSW; infer_instance

instance (b : Board) (p : Pawn) : Decidable (globalFour b p) := by
  unfold globalFour; infer_instance

instance (b : Board) : Decidable (globalConnected b) := by
  unfold globalConnected; infer_instance

instance (b : Board) : Decidable (specFull b) := by
  unfold specFull; infer_instance

/-- Index positions visited by the code's `\`-diagonal extraction. -/
def d1Idx (row col : Nat) : List (Nat × Nat) :=
  (List.range MAX_ROW).flatMap (fun i =>
    ((List.range MAX_COL).filter (fun (j : Nat) => decide ((row : Int) - i = (col : Int) - j))).map
      (fun j => (i, j)))

/-- Index positions visited by the code's `/`-diagonal extraction. -/
def d2Idx (row col : Nat) : List (Nat × Nat) :=
  (List.range MAX_ROW).flatMap (fun i =>
    ((List.range MAX_COL).filter (fun (j : Nat) => decide ((row : Int) - i = (j : Int) - col))).map
      (fun j => (i, j)))

/-- Index positions of the spec's clipped `\`-diagonal through `(row, col)`. -/
def specD1Idx (row col : Nat) : List (Nat × Nat) :=
  (List.range (min (MAX_ROW - (row - min row col)) (MAX_COL - (col - min row col)))).map
    (fun u => (row - min row col + u, col - min row col + u))

/-- Index positions of the spec's clipped `/`-diagonal through `(row, col)`. -/
def specD2Idx (row col : Nat) : List (Nat × Nat) :=
  (List.range (min (MAX_ROW - 1) (row + col) + 1 - (row + col - (MAX_COL - 1)))).map
    (fun u => (row + col - (MAX_COL - 1) + u, row + col - (row + col - (MAX_COL - 1) + u)))

/-- The four spec lines through `(row, col)`: full row, full column, and the two
clipped diagonals. -/
def specLines (b : Board) (row col : Nat) : List (List Pawn) :=
  [ConnectFour.hLine b row, ConnectFour.vLine b col, specD1Line b row col, specD2Line b row col]

/-- A seven-move session (columns entered by the players, red first) ending in a
vertical red four in column 0. -/
def demoVertical : List Nat := [0, 1, 0, 1, 0, 1, 0]

/-- A six-move session filling column 0 completely with no four-in-a-row. -/
def demoFullColumn : List Nat := [0, 0, 0, 0, 0, 0]

/-- A forty-two-move session filling the whole board whose last move also
completes a four-in-a-row for blue. -/
def demoFullBoard : List Nat :=
  [4, 1, 6, 2, 1, 0, 1, 4, 4, 2, 4, 1, 3, 6, 3, 3, 1, 0, 4, 6, 6,
   1, 2, 3, 2, 3, 2, 2, 6, 5, 5, 0, 5, 4, 6, 5, 5, 5, 0, 0, 0, 3]

/-- The state after playing `demoVertical` (red has just won). -/
def demoVerticalState : ConnectFour :=
  (ConnectFour.apply_moves ConnectFour.new demoVertical).getD ConnectFour.new

/-- The state after playing `demoFullColumn` (column 0 full, game not over). -/
def demoFullColumnState : ConnectFour :=
  (ConnectFour.apply_moves ConnectFour.new demoFullColumn).getD ConnectFour.new

/-- The state after playing `demoFullBoard` (board full and blue connected). -/
def demoFullBoardState : ConnectFour :=
  (ConnectFour.apply_moves ConnectFour.new demoFullBoard).getD ConnectFour.new

/-- The state after the first six moves of `demoVertical` (red to move). -/
def demoMidState : ConnectFour :=
  (ConnectFour.apply_moves ConnectFour.new [0, 1, 0, 1, 0, 1]).getD ConnectFour.new

/-- `demoMidState` after red places at `(2, 0)`, completing a vertical four. -/
def demoWinState : ConnectFour := demoMidState.place 2 0

end SpecSide

section FindLemmas

/-- `find?` over `(range n).reverse` finds nothing iff the predicate fails below `n`. -/
theorem find_revRange_none (n : Nat) (p : Nat → Bool) :
    ((List.range n).reverse.find? p = none) ↔ ∀ r < n, p r = false := by
  induction n with
  | zero => simp
  | succ n ih =>
    rw [List.range_succ, List.reverse_append]
    simp only [List.reverse_cons, List.reverse_nil, List.nil_append, List.singleton_append,
      List.find?_cons]
    cases hp : p n with
    | true =>
      simp only []
      constructor
      · intro h; cases h
      · intro h; exact absurd hp (by simp [h n (Nat.lt_succ_self n)])
    | false =>
      simp only []
      rw [ih]
      constructor
      · intro h r hr
        rcases Nat.lt_succ_iff_lt_or_eq.mp hr with h' | h'
        · exact h r h'
        · subst h'; exact hp
      · intro h r hr; exact h r (Nat.lt_succ_of_lt hr)

/-- `find?` over `(range n).reverse` returns the largest index below `n`
satisfying the predicate. -/
theorem find_revRange_some {n r : Nat} {p : Nat → Bool}
    (h : (List.range n).reverse.find? p = some r) :
    p r = true ∧ r < n ∧ ∀ r', r < r' → r' < n → p r' = false := by
  induction n with
  | zero => simp at h
  | succ n ih =>
    rw [List.range_succ, List.reverse_append] at h
    simp only [List.reverse_cons, List.reverse_nil, List.nil_append, List.singleton_append,
      List.find?_cons] at h
    cases hp : p n with
    | true =>
      rw [hp] at h
      simp only [Option.some.injEq] at h
      subst h
      exact ⟨hp, Nat.lt_succ_self n, fun r' h1 h2 => absurd h2 (by omega)⟩
    | false =>
      rw [hp] at h
      obtain ⟨h1, h2, h3⟩ := ih h
      refine ⟨h1, Nat.lt_succ_of_lt h2, fun r' hr1 hr2 => ?_⟩
      rcases Nat.lt_succ_iff_lt_or_eq.mp hr2 with h' | h'
      · exact h3 r' hr1 h'
      · subst h'; exact hp

end FindLemmas

section EngineLemmas

open ConnectFour

theorem setCell_self (b : Board) (row col : Nat) (p : Pawn) :
    setCell b row col p row col = p := by
  simp [setCell]

theorem setCell_ne (b : Board) (row col : Nat) (p : Pawn) {i j : Nat}
    (h : ¬(i = row ∧ j = col)) : setCell b row col p i j = b i j := by
  simp [setCell, h]

/-- `get_empty_spot` hit: the reported row is in bounds and empty, every row
strictly below it in the column is occupied. -/
theorem get_empty_spot_some {g : ConnectFour} {col r : Nat}
    (h : g.get_empty_spot col = some r) :
    r < MAX_ROW ∧ g.board r col = Pawn.White ∧
      ∀ r', r < r' → r' < MAX_ROW → g.board r' col ≠ Pawn.White := by
  unfold get_empty_spot at h
  obtain ⟨h1, h2, h3⟩ := find_revRange_some h
  simp only [is_set, Bool.not_eq_true', decide_eq_false_iff_not, Decidable.not_not] at h1
  refine ⟨h2, by simpa using h1, fun r' hr1 hr2 => ?_⟩
  have := h3 r' hr1 hr2
  simpa [is_set] using this

/-- `get_empty_spot` miss: the column is full. -/
theorem get_empty_spot_none {g : ConnectFour} {col : Nat} :
    g.get_empty_spot col = none ↔ ∀ r < MAX_ROW, g.board r col ≠ Pawn.White := by
  unfold get_empty_spot
  rw [find_revRange_none]
  constructor
  · intro h r hr
    have := h r hr
    simpa [is_set] using this
  · intro h r hr
    simpa [is_set] using h r hr

/-- `is_full` agrees with the spec's full-occupancy predicate. -/
theorem is_full_iff (g : ConnectFour) : g.is_full = true ↔ specFull g.board := by
  simp [is_full, specFull, List.all_eq_true, List.mem_range]

/-- `has_window` finds exactly the winning windows of the spec. -/
theorem has_window_iff (p : Pawn) (l : List Pawn) :
    has_window p l = true ↔ ∃ s, winWindowAt p l s := by
  unfold has_window windows winWindowAt MIN_CONNECT
  rw [List.any_eq_true]
  constructor
  · rintro ⟨w, hw, hall⟩
    rw [List.mem_map] at hw
    obtain ⟨s, hs, rfl⟩ := hw
    rw [List.mem_range] at hs
    refine ⟨s, by omega, fun t ht => ?_⟩
    rw [List.all_eq_true] at hall
    have hlen : (l.drop s).length = l.length - s := List.length_drop s l
    have htlt : t < ((l.drop s).take 4).length := by
      rw [List.length_take, hlen]; omega
    have hmem : ((l.drop s).take 4).get ⟨t, htlt⟩ ∈ (l.drop s).take 4 := List.get_mem _ _ htlt
    have hval := hall _ hmem
    rw [decide_eq_true_iff] at hval
    have hget : ((l.drop s).take 4).get? t = l.get? (s + t) := by
      rw [List.get?_take ht, List.get?_drop]
    rw [← hget, List.get?_eq_get htlt, hval]
  · rintro ⟨s, hs, hwin⟩
    refine ⟨(l.drop s).take 4, List.mem_map.mpr ⟨s, List.mem_range.mpr (by omega), rfl⟩, ?_⟩
    rw [List.all_eq_true]
    intro x hx
    rw [List.mem_iff_get?] at hx
    obtain ⟨t, ht⟩ := hx
    obtain ⟨htlt, -⟩ := List.get?_eq_some.mp ht
    have ht4 : t < 4 := by
      have := List.length_take 4 (l.drop s)
      omega
    have : l.get? (s + t) = some x := by
      rw [← List.get?_drop, ← List.get?_take ht4, ht]
    rw [hwin t ht4] at this
    simp only [Option.some.injEq] at this
    subst this
    exact decide_eq_true rfl

end EngineLemmas

section LineLemmas

open ConnectFour

theorem d1Line_eq_idx (b : Board) (row col : Nat) :
    d1Line b row col = (d1Idx row col).map (fun q => b q.1 q.2) := by
  unfold d1Line d1Idx
  rw [List.map_flatMap]
  refine List.flatMap_congr ?_
  intro i _
  rw [List.map_map]
  rfl

theorem d2Line_eq_idx (b : Board) (row col : Nat) :
    d2Line b row col = (d2Idx row col).map (fun q => b q.1 q.2) := by
  unfold d2Line d2Idx
  rw [List.map_flatMap]
  refine List.flatMap_congr ?_
  intro i _
  rw [List.map_map]
  rfl

theorem specD1Line_eq_idx (b : Board) (row col : Nat) :
    specD1Line b row col = (specD1Idx row col).map (fun q => b q.1 q.2) := by
  unfold specD1Line specD1Idx
  rw [List.map_map]
  rfl

theorem specD2Line_eq_idx (b : Board) (row col : Nat) :
    specD2Line b row col = (specD2Idx row col).map (fun q => b q.1 q.2) := by
  unfold specD2Line specD2Idx
  rw [List.map_map]
  rfl

/-- On the whole grid, the code's `\`-diagonal extraction visits exactly the
spec's clipped diagonal, in the same order. -/
theorem d1Idx_eq_spec : ∀ row < MAX_ROW, ∀ col < MAX_COL, d1Idx row col = specD1Idx row col := by
  decide

/-- On the whole grid, the code's `/`-diagonal extraction visits exactly the
spec's clipped anti-diagonal, in the same order. -/
theorem d2Idx_eq_spec : ∀ row < MAX_ROW, ∀ col < MAX_COL, d2Idx row col = specD2Idx row col := by
  decide

/-- The code's `\`-diagonal line equals the spec's clipped diagonal line. -/
theorem d1Line_eq_spec (b : Board) {row col : Nat} (hrow : row < MAX_ROW) (hcol : col < MAX_COL) :
    d1Line b row col = specD1Line b row col := by
  rw [d1Line_eq_idx, specD1Line_eq_idx, d1Idx_eq_spec row hrow col hcol]

/-- The code's `/`-diagonal line equals the spec's clipped anti-diagonal line. -/
theorem d2Line_eq_spec (b : Board) {row col : Nat} (hrow : row < MAX_ROW) (hcol : col < MAX_COL) :
    d2Line b row col = specD2Line b row col := by
  rw [d2Line_eq_idx, specD2Line_eq_idx, d2Idx_eq_spec row hrow col hcol]

theorem hLine_get (b : Board) (row : Nat) {u : Nat} (hu : u < MAX_COL) :
    (hLine b row).get? u = some (b row u) := by
  rw [hLine, List.get?_map, List.get?_range hu, Option.map_some']

theorem hLine_length (b : Board) (row : Nat) : (hLine b row).length = MAX_COL := by
  simp [hLine]

theorem vLine_get (b : Board) (col : Nat) {u : Nat} (hu : u < MAX_ROW) :
    (vLine b col).get? u = some (b u col) := by
  rw [vLine, List.get?_map, List.get?_range hu, Option.map_some']

theorem vLine_length (b : Board) (col : Nat) : (vLine b col).length = MAX_ROW := by
  simp [vLine]

theorem specD1Line_get (b : Board) (row col : Nat) {u : Nat}
    (hu : u < min (MAX_ROW - (row - min row col)) (MAX_COL - (col - min row col))) :
    (specD1Line b row col).get? u =
      some (b (row - min row col + u) (col - min row col + u)) := by
  rw [specD1Line, List.get?_map, List.get?_range hu, Option.map_some']

theorem specD1Line_length (b : Board) (row col : Nat) :
    (specD1Line b row col).length =
      min (MAX_ROW - (row - min row col)) (MAX_COL - (col - min row col)) := by
  simp [specD1Line]

theorem specD2Line_get (b : Board) (row col : Nat) {u : Nat}
    (hu : u < min (MAX_ROW - 1) (row + col) + 1 - (row + col - (MAX_COL - 1))) :
    (specD2Line b row col).get? u =
      some (b (row + col - (MAX_COL - 1) + u)
        (row + col - (row + col - (MAX_COL - 1) + u))) := by
  rw [specD2Line, List.get?_map, List.get?_range hu, Option.map_some']

theorem specD2Line_length (b : Board) (row col : Nat) :
    (specD2Line b row col).length =
      min (MAX_ROW - 1) (row + col) + 1 - (row + col - (MAX_COL - 1)) := by
  simp [specD2Line]

end LineLemmas

section AnchoredLemmas

open ConnectFour

/-- `is_four_connected` succeeds exactly when one of the four clipped lines
through the anchor holds a winning window of the mover's colour. -/
theorem is_four_connected_iff_lines (g : ConnectFour) {row col : Nat}
    (hrow : row < MAX_ROW) (hcol : col < MAX_COL) :
    g.is_four_connected row col = true ↔
      ∃ l ∈ specLines g.board row col, ∃ s, winWindowAt g.turn l s := by
  unfold is_four_connected
  rw [d1Line_eq_spec g.board hrow hcol, d2Line_eq_spec g.board hrow hcol]
  simp only [Bool.or_eq_true, has_window_iff, specLines, List.mem_cons, List.mem_singleton,
    List.not_mem_nil, or_false]
  constructor
  · rintro ((h | h) | (h | h))
    · exact ⟨hLine g.board row, Or.inl rfl, h⟩
    · exact ⟨vLine g.board col, Or.inr (Or.inl rfl), h⟩
    · exact ⟨specD1Line g.board row col, Or.inr (Or.inr (Or.inl rfl)), h⟩
    · exact ⟨specD2Line g.board row col, Or.inr (Or.inr (Or.inr rfl)), h⟩
  · rintro ⟨l, (rfl | rfl | rfl | rfl), h⟩
    · exact Or.inl (Or.inl h)
    · exact Or.inl (Or.inr h)
    · exact Or.inr (Or.inl h)
    · exact Or.inr (Or.inr h)

end AnchoredLemmas

section WindowFour

open ConnectFour

theorem MAX_ROW_def : MAX_ROW = 6 := rfl

theorem MAX_COL_def : MAX_COL = 7 := rfl

theorem MIN_CONNECT_def : MIN_CONNECT = 4 := rfl

/-- A winning window on the full row is four in a row eastwards. -/
theorem winH_four {b : Board} {p : Pawn} {row s : Nat} (hrow : row < MAX_ROW)
    (h : winWindowAt p (hLine b row) s) : fourE b p row s := by
  obtain ⟨hlen, hget⟩ := h
  rw [hLine_length, MAX_COL_def, MIN_CONNECT_def] at hlen
  refine ⟨hrow, by rw [MAX_COL_def]; omega, fun t ht => ?_⟩
  have := hget t (by rw [MIN_CONNECT_def]; omega)
  rw [hLine_get b row (by rw [MAX_COL_def]; omega)] at this
  exact Option.some.inj this

/-- A winning window on the full column is four in a row southwards. -/
theorem winV_four {b : Board} {p : Pawn} {col s : Nat} (hcol : col < MAX_COL)
    (h : winWindowAt p (vLine b col) s) : fourS b p s col := by
  obtain ⟨hlen, hget⟩ := h
  rw [vLine_length, MAX_ROW_def, MIN_CONNECT_def] at hlen
  refine ⟨by rw [MAX_ROW_def]; omega, hcol, fun t ht => ?_⟩
  have := hget t (by rw [MIN_CONNECT_def]; omega)
  rw [vLine_get b col (by rw [MAX_ROW_def]; omega)] at this
  exact Option.some.inj this

/-- A winning window on the clipped `\`-diagonal is four in a row south-east. -/
theorem winD1_four {b : Board} {p : Pawn} {row col s : Nat}
    (h : winWindowAt p (specD1Line b row col) s) :
    fourSE b p (row - min row col + s) (col - min row col + s) := by
  obtain ⟨hlen, hget⟩ := h
  rw [specD1Line_length, MAX_ROW_def, MAX_COL_def, MIN_CONNECT_def] at hlen
  refine ⟨by rw [MAX_ROW_def]; omega, by rw [MAX_COL_def]; omega, fun t ht => ?_⟩
  have := hget t (by rw [MIN_CONNECT_def]; omega)
  rw [specD1Line_get b row col (by rw [MAX_ROW_def, MAX_COL_def]; omega)] at this
  rw [Nat.add_assoc, Nat.add_assoc]
  exact Option.some.inj this

/-- A winning window on the clipped `/`-diagonal is four in a row south-west. -/
theorem winD2_four {b : Board} {p : Pawn} {row col s : Nat}
    (h : winWindowAt p (specD2Line b row col) s) :
    fourSW b p (row + col - (MAX_COL - 1) + s)
      (row + col - (row + col - (MAX_COL - 1) + s)) := by
  obtain ⟨hlen, hget⟩ := h
  rw [specD2Line_length, MAX_ROW_def, MAX_COL_def, MIN_CONNECT_def] at hlen
  refine ⟨?_, ?_, ?_, fun t ht => ?_⟩
  · rw [MAX_ROW_def, MAX_COL_def]; omega
  · rw [MAX_COL_def]; omega
  · rw [MAX_COL_def]; omega
  · have hval := hget t (by rw [MIN_CONNECT_def]; omega)
    rw [specD2Line_get b row col (by rw [MAX_ROW_def, MAX_COL_def]; omega)] at hval
    rw [MAX_COL_def] at hval ⊢
    have e1 : row + col - 6 + s + t = row + col - 6 + (s + t) := by omega
    have e2 : row + col - (row + col - 6 + s) - t = row + col - (row + col - 6 + (s + t)) := by
      omega
    rw [e1, e2]
    exact Option.some.inj hval

/-- Four in a row eastwards yields a winning window on the full row through any
of its four cells. -/
theorem fourE_window {b : Board} {p : Pawn} {i j : Nat} (h : fourE b p i j) :
    winWindowAt p (hLine b i) j := by
  obtain ⟨hi, hj, hc⟩ := h
  rw [MAX_COL_def] at hj
  refine ⟨by rw [hLine_length, MAX_COL_def, MIN_CONNECT_def]; omega, fun t ht => ?_⟩
  rw [MIN_CONNECT_def] at ht
  rw [hLine_get b i (by rw [MAX_COL_def]; omega)]
  exact congrArg some (hc t ht)

/-- Four in a row southwards yields a winning window on the full column. -/
theorem fourS_window {b : Board} {p : Pawn} {i j : Nat} (h : fourS b p i j) :
    winWindowAt p (vLine b j) i := by
  obtain ⟨hi, hj, hc⟩ := h
  rw [MAX_ROW_def] at hi
  refine ⟨by rw [vLine_length, MAX_ROW_def, MIN_CONNECT_def]; omega, fun t ht => ?_⟩
  rw [MIN_CONNECT_def] at ht
  rw [vLine_get b j (by rw [MAX_ROW_def]; omega)]
  exact congrArg some (hc t ht)

/-- Four in a row south-east yields a winning window on the clipped
`\`-diagonal through its `t0`-th cell. -/
theorem fourSE_window {b : Board} {p : Pawn} {i j : Nat} (h : fourSE b p i j)
    (t0 : Nat) (ht0 : t0 < 4) :
    winWindowAt p (specD1Line b (i + t0) (j + t0)) (min i j) := by
  obtain ⟨hi, hj, hc⟩ := h
  rw [MAX_ROW_def] at hi
  rw [MAX_COL_def] at hj
  constructor
  · rw [specD1Line_length, MAX_ROW_def, MAX_COL_def, MIN_CONNECT_def]; omega
  · intro t ht
    rw [MIN_CONNECT_def] at ht
    rw [specD1Line_get b (i + t0) (j + t0) (by rw [MAX_ROW_def, MAX_COL_def]; omega)]
    have e1 : i + t0 - min (i + t0) (j + t0) + (min i j + t) = i + t := by omega
    have e2 : j + t0 - min (i + t0) (j + t0) + (min i j + t) = j + t := by omega
    rw [e1, e2]
    exact congrArg some (hc t ht)

/-- Four in a row south-west yields a winning window on the clipped
`/`-diagonal through its `t0`-th cell. -/
theorem fourSW_window {b : Board} {p : Pawn} {i j : Nat} (h : fourSW b p i j)
    (t0 : Nat) (ht0 : t0 < 4) :
    winWindowAt p (specD2Line b (i + t0) (j - t0)) (i - (i + j - (MAX_COL - 1))) := by
  obtain ⟨hi, hj3, hj, hc⟩ := h
  rw [MAX_ROW_def] at hi
  rw [MAX_COL_def] at hj
  rw [MAX_COL_def]
  constructor
  · rw [specD2Line_length, MAX_ROW_def, MAX_COL_def, MIN_CONNECT_def]; omega
  · intro t ht
    rw [MIN_CONNECT_def] at ht
    rw [specD2Line_get b (i + t0) (j - t0) (by rw [MAX_ROW_def, MAX_COL_def]; omega)]
    rw [MAX_COL_def]
    have e1 : i + t0 + (j - t0) - 6 + (i - (i + j - 6) + t) = i + t := by omega
    rw [e1]
    have e2 : i + t0 + (j - t0) - (i + t) = j - t := by omega
    rw [e2]
    exact congrArg some (hc t ht)

end WindowFour

section PlacedLemmas

open ConnectFour

/-- On a board that differs from `b` only at `(row, col)`, an eastwards four
either already exists on `b` or passes through `(row, col)` with the mover's
colour. -/
theorem fourE_cases {g : ConnectFour} {b : Board} {row col i j : Nat} {q : Pawn}
    (hb : g.board = setCell b row col g.turn) (h : fourE g.board q i j) :
    fourE b q i j ∨ (q = g.turn ∧ ∃ t0 < 4, i = row ∧ j + t0 = col) := by
  by_cases hmem : ∃ t0 < 4, i = row ∧ j + t0 = col
  · obtain ⟨t0, ht0, he1, he2⟩ := hmem
    have hc := h.2.2 t0 ht0
    rw [he1, he2, hb, setCell_self] at hc
    exact Or.inr ⟨hc.symm, t0, ht0, he1, he2⟩
  · refine Or.inl ⟨h.1, h.2.1, fun t ht => ?_⟩
    have hc := h.2.2 t ht
    rw [hb, setCell_ne] at hc
    · exact hc
    · rintro ⟨e1, e2⟩; exact hmem ⟨t, ht, e1, e2⟩

/-- Same for a southwards four. -/
theorem fourS_cases {g : ConnectFour} {b : Board} {row col i j : Nat} {q : Pawn}
    (hb : g.board = setCell b row col g.turn) (h : fourS g.board q i j) :
    fourS b q i j ∨ (q = g.turn ∧ ∃ t0 < 4, i + t0 = row ∧ j = col) := by
  by_cases hmem : ∃ t0 < 4, i + t0 = row ∧ j = col
  · obtain ⟨t0, ht0, he1, he2⟩ := hmem
    have hc := h.2.2 t0 ht0
    rw [he1, he2, hb, setCell_self] at hc
    exact Or.inr ⟨hc.symm, t0, ht0, he1, he2⟩
  · refine Or.inl ⟨h.1, h.2.1, fun t ht => ?_⟩
    have hc := h.2.2 t ht
    rw [hb, setCell_ne] at hc
    · exact hc
    · rintro ⟨e1, e2⟩; exact hmem ⟨t, ht, e1, e2⟩

/-- Same for a south-east four. -/
theorem fourSE_cases {g : ConnectFour} {b : Board} {row col i j : Nat} {q : Pawn}
    (hb : g.board = setCell b row col g.turn) (h : fourSE g.board q i j) :
    fourSE b q i j ∨ (q = g.turn ∧ ∃ t0 < 4, i + t0 = row ∧ j + t0 = col) := by
  by_cases hmem : ∃ t0 < 4, i + t0 = row ∧ j + t0 = col
  · obtain ⟨t0, ht0, he1, he2⟩ := hmem
    have hc := h.2.2 t0 ht0
    rw [he1, he2, hb, setCell_self] at hc
    exact Or.inr ⟨hc.symm, t0, ht0, he1, he2⟩
  · refine Or.inl ⟨h.1, h.2.1, fun t ht => ?_⟩
    have hc := h.2.2 t ht
    rw [hb, setCell_ne] at hc
    · exact hc
    · rintro ⟨e1, e2⟩; exact hmem ⟨t, ht, e1, e2⟩

/-- Same for a south-west four. -/
theorem fourSW_cases {g : ConnectFour} {b : Board} {row col i j : Nat} {q : Pawn}
    (hb : g.board = setCell b row col g.turn) (h : fourSW g.board q i j) :
    fourSW b q i j ∨ (q = g.turn ∧ ∃ t0 < 4, i + t0 = row ∧ j - t0 = col) := by
  by_cases hmem : ∃ t0 < 4, i + t0 = row ∧ j - t0 = col
  · obtain ⟨t0, ht0, he1, he2⟩ := hmem
    have hc := h.2.2.2 t0 ht0
    rw [he1, he2, hb, setCell_self] at hc
    exact Or.inr ⟨hc.symm, t0, ht0, he1, he2⟩
  · refine Or.inl ⟨h.1, h.2.1, h.2.2.1, fun t ht => ?_⟩
    have hc := h.2.2.2 t ht
    rw [hb, setCell_ne] at hc
    · exact hc
    · rintro ⟨e1, e2⟩; exact hmem ⟨t, ht, e1, e2⟩

/-- Wrap a colour-`q` four of either player into `globalConnected`. -/
theorem globalConnected_of_four {b : Board} {q : Pawn} (hq : q = Pawn.Red ∨ q = Pawn.Blue)
    (h : globalFour b q) : globalConnected b := by
  rcases hq with rfl | rfl
  · exact Or.inl h
  · exact Or.inr h

/-- The central equivalence: placing colour `turn` on an empty in-bounds cell of
a board with no prior four-in-a-row, the anchored window check of
`is_four_connected` agrees with the full-grid four-in-a-row scan. -/
theorem anchored_iff_global {g : ConnectFour} {b : Board} {row col : Nat}
    (hb : g.board = setCell b row col g.turn)
    (hrow : row < MAX_ROW) (hcol : col < MAX_COL)
    (hturn : g.turn = Pawn.Red ∨ g.turn = Pawn.Blue)
    (hpre : ¬ globalConnected b) :
    g.is_four_connected row col = true ↔ globalConnected g.board := by
  rw [is_four_connected_iff_lines g hrow hcol]
  constructor
  · rintro ⟨l, hl, s, hwin⟩
    refine globalConnected_of_four hturn ?_
    simp only [specLines, List.mem_cons, List.not_mem_nil, or_false] at hl
    rcases hl with rfl | rfl | rfl | rfl
    · have h4 := winH_four hrow hwin
      have hs : s < MAX_COL := by have := h4.2.1; omega
      exact ⟨row, hrow, s, hs, Or.inl h4⟩
    · have h4 := winV_four hcol hwin
      have hs : s < MAX_ROW := by have := h4.1; omega
      exact ⟨s, hs, col, hcol, Or.inr (Or.inl h4)⟩
    · have h4 := winD1_four hwin
      exact ⟨_, by have := h4.1; omega, _, by have := h4.2.1; omega,
        Or.inr (Or.inr (Or.inl h4))⟩
    · have h4 := winD2_four hwin
      exact ⟨_, by have := h4.1; omega, _, by have := h4.2.2.1; omega,
        Or.inr (Or.inr (Or.inr h4))⟩
  · intro hglob
    have hqex : ∃ q, (q = Pawn.Red ∨ q = Pawn.Blue) ∧ globalFour g.board q := by
      rcases hglob with h | h
      · exact ⟨Pawn.Red, Or.inl rfl, h⟩
      · exact ⟨Pawn.Blue, Or.inr rfl, h⟩
    obtain ⟨q, hq, i, hi, j, hj, hfour⟩ := hqex
    rcases hfour with h4 | h4 | h4 | h4
    · rcases fourE_cases hb h4 with hold | ⟨hqt, t0, ht0, he1, he2⟩
      · exact absurd (globalConnected_of_four hq ⟨i, hi, j, hj, Or.inl hold⟩) hpre
      · refine ⟨hLine g.board row, by simp [specLines], j, ?_⟩
        have hw := fourE_window h4
        rw [he1, hqt] at hw
        exact hw
    · rcases fourS_cases hb h4 with hold | ⟨hqt, t0, ht0, he1, he2⟩
      · exact absurd (globalConnected_of_four hq ⟨i, hi, j, hj, Or.inr (Or.inl hold)⟩) hpre
      · refine ⟨vLine g.board col, by simp [specLines], i, ?_⟩
        have hw := fourS_window h4
        rw [he2, hqt] at hw
        exact hw
    · rcases fourSE_cases hb h4 with hold | ⟨hqt, t0, ht0, he1, he2⟩
      · exact absurd (globalConnected_of_four hq ⟨i, hi, j, hj, Or.inr (Or.inr (Or.inl hold))⟩)
          hpre
      · refine ⟨specD1Line g.board row col, by simp [specLines], min i j, ?_⟩
        have hw := fourSE_window h4 t0 ht0
        rw [he1, he2, hqt] at hw
        exact hw
    · rcases fourSW_cases hb h4 with hold | ⟨hqt, t0, ht0, he1, he2⟩
      · exact absurd (globalConnected_of_four hq ⟨i, hi, j, hj, Or.inr (Or.inr (Or.inr hold))⟩)
          hpre
      · refine ⟨specD2Line g.board row col, by simp [specLines], i - (i + j - (MAX_COL - 1)), ?_⟩
        have hw := fourSW_window h4 t0 ht0
        rw [he1, he2, hqt] at hw
        exact hw

end PlacedLemmas

section CountLemmas

open ConnectFour

/-- Counting a mapped list after changing the function at a single key of a
duplicate-free list: the two counts differ exactly by the two indicator terms. -/
theorem count_map_update (p : Pawn) (l : List (Nat × Nat)) (x : Nat × Nat)
    (f g : Nat × Nat → Pawn) (hnd : l.Nodup) (hx : x ∈ l)
    (hagree : ∀ y ∈ l, y ≠ x → f y = g y) :
    (l.map f).count p + (if g x = p then 1 else 0) =
      (l.map g).count p + (if f x = p then 1 else 0) := by
  induction l with
  | nil => exact absurd hx (List.not_mem_nil x)
  | cons y t ih =>
    rw [List.nodup_cons] at hnd
    rcases List.mem_cons.mp hx with rfl | hxt
    · have hmaps : t.map f = t.map g :=
        List.map_congr_left (fun z hz =>
          hagree z (List.mem_cons_of_mem _ hz) (fun he => hnd.1 (he ▸ hz)))
      simp only [List.map_cons, List.count_cons, hmaps, beq_iff_eq]
      split_ifs <;> omega
    · have hyx : y ≠ x := fun he => hnd.1 (he ▸ hxt)
      have hfy : f y = g y := hagree y (List.mem_cons_self y t) hyx
      have hih := ih hnd.2 hxt (fun z hz hne => hagree z (List.mem_cons_of_mem _ hz) hne)
      simp only [List.map_cons, List.count_cons, hfy, beq_iff_eq]
      split_ifs at hih ⊢ <;> omega

theorem gridIdx_nodup : gridIdx.Nodup := by decide

theorem mem_gridIdx {row col : Nat} (hrow : row < MAX_ROW) (hcol : col < MAX_COL) :
    (row, col) ∈ gridIdx := by
  simp only [gridIdx, List.mem_flatMap, List.mem_range, List.mem_map]
  exact ⟨row, hrow, col, hcol, rfl⟩

/-- Cell counts after a single-cell write. -/
theorem countCells_setCell {b : Board} {row col : Nat} (p q : Pawn)
    (hrow : row < MAX_ROW) (hcol : col < MAX_COL) :
    countCells (setCell b row col p) q + (if b row col = q then 1 else 0) =
      countCells b q + (if p = q then 1 else 0) := by
  have h := count_map_update q gridIdx (row, col)
    (fun y => setCell b row col p y.1 y.2) (fun y => b y.1 y.2)
    gridIdx_nodup (mem_gridIdx hrow hcol)
    (fun y _ hne => setCell_ne b row col p (fun he => hne (Prod.ext he.1 he.2)))
  unfold countCells
  simp only [setCell_self] at h
  exact h

end CountLemmas

section ReachLemmas

open ConnectFour

/-- The turn of any reachable state is a player colour, never white. -/
theorem reach_turn {g : ConnectFour} (h : Reachable g) :
    g.turn = Pawn.Red ∨ g.turn = Pawn.Blue := by
  induction h with
  | init => exact Or.inl rfl
  | step _ _ _ _ ih =>
    rcases ih with he | he
    · exact Or.inr (by simp [toggle_turn, place, he, Pawn.switch])
    · exact Or.inl (by simp [toggle_turn, place, he, Pawn.switch])

/-- In any reachable state the `is_connected` flag agrees with the full-grid
four-in-a-row scan. -/
theorem reach_connected {g : ConnectFour} (h : Reachable g) :
    g.is_connected = true ↔ globalConnected g.board := by
  induction h with
  | init =>
    constructor
    · intro hc; exact absurd hc (by simp [ConnectFour.new])
    · intro hc; exact absurd hc (by decide)
  | @step g col row hreach hover hcol hspot ih =>
    obtain ⟨hr, hempty, -⟩ := get_empty_spot_some hspot
    have hturn := reach_turn hreach
    have hconn : g.is_connected = false := by
      rcases Bool.or_eq_false_iff.mp hover with ⟨h1, h2⟩
      exact h1
    have hpre : ¬ globalConnected g.board := fun hg => by
      rw [ih.mpr hg] at hconn
      cases hconn
    exact anchored_iff_global (g := g.place row col) rfl hr hcol hturn hpre

/-- A reachable state with the `is_connected` flag set has a nonempty move log. -/
theorem reach_stack_ne {g : ConnectFour} (h : Reachable g) (hc : g.is_connected = true) :
    g.moves_stack ≠ [] := by
  induction h with
  | init => exact absurd hc (by simp [ConnectFour.new])
  | step _ _ _ _ _ => simp [toggle_turn, place]

/-- The alternation invariant on cell counts of reachable states. -/
theorem reach_counts {g : ConnectFour} (h : Reachable g) :
    (g.turn = Pawn.Red →
      countCells g.board Pawn.Red = countCells g.board Pawn.Blue) ∧
    (g.turn = Pawn.Blue →
      countCells g.board Pawn.Red = countCells g.board Pawn.Blue + 1) := by
  induction h with
  | init =>
    constructor
    · intro _; rfl
    · intro hb; exact absurd hb (by simp [ConnectFour.new])
  | @step g col row hreach hover hcol hspot ih =>
    obtain ⟨hr, hempty, -⟩ := get_empty_spot_some hspot
    have hturn := reach_turn hreach
    have hboard : (toggle_turn (g.place row col)).board = setCell g.board row col g.turn := rfl
    have hturn' : (toggle_turn (g.place row col)).turn = g.turn.switch := rfl
    rcases hturn with he | he
    · have hred : countCells (setCell g.board row col Pawn.Red) Pawn.Red =
          countCells g.board Pawn.Red + 1 := by
        have := countCells_setCell (b := g.board) Pawn.Red Pawn.Red hr hcol
        rw [hempty] at this
        simpa using this
      have hblue : countCells (setCell g.board row col Pawn.Red) Pawn.Blue =
          countCells g.board Pawn.Blue := by
        have := countCells_setCell (b := g.board) Pawn.Red Pawn.Blue hr hcol
        rw [hempty] at this
        simpa using this
      constructor
      · intro hx; rw [hturn', he] at hx; exact absurd hx (by simp [Pawn.switch])
      · intro _
        rw [hboard, he, hred, hblue, ih.1 he]
    · have hred : countCells (setCell g.board row col Pawn.Blue) Pawn.Red =
          countCells g.board Pawn.Red := by
        have := countCells_setCell (b := g.board) Pawn.Blue Pawn.Red hr hcol
        rw [hempty] at this
        simpa using this
      have hblue : countCells (setCell g.board row col Pawn.Blue) Pawn.Blue =
          countCells g.board Pawn.Blue + 1 := by
        have := countCells_setCell (b := g.board) Pawn.Blue Pawn.Blue hr hcol
        rw [hempty] at this
        simpa using this
      constructor
      · intro _
        rw [hboard, he, hred, hblue]
        exact ih.2 he
      · intro hx; rw [hturn', he] at hx; exact absurd hx (by simp [Pawn.switch])

/-- Replaying a list of protocol moves reaches only reachable states. -/
theorem reachable_of_apply_moves {l : List Nat} :
    ∀ {g g' : ConnectFour}, apply_moves g l = some g' → Reachable g → Reachable g' := by
  induction l with
  | nil => intro g g' h hg; rw [apply_moves] at h; cases h; exact hg
  | cons c rest ih =>
    intro g g' h hg
    rw [apply_moves] at h
    by_cases hov : g.is_over
    · rw [if_pos hov] at h; cases h
    · rw [if_neg hov] at h
      by_cases hc : c < MAX_COL
      · rw [if_pos hc] at h
        cases hspot : g.get_empty_spot c with
        | none => rw [hspot] at h; cases h
        | some row =>
          rw [hspot] at h
          exact ih h (Reachable.step hg (by simpa using hov) hc hspot)
      · rw [if_neg hc] at h; cases h

end ReachLemmas

section Claims

open ConnectFour

/-- C10: `Pawn::switch` swaps red and blue and fixes white; it is an involution;
hence the turn field, initialized to red by `ConnectFour::new`, is red or blue
after any number of toggles and is never the white (empty-cell) marker. -/
theorem claim_C10_switch :
    (Pawn.switch Pawn.Red = Pawn.Blue ∧ Pawn.switch Pawn.Blue = Pawn.Red ∧
      Pawn.switch Pawn.White = Pawn.White) ∧
    (∀ p : Pawn, p.switch.switch = p) ∧
    (∀ n : Nat, Pawn.switch^[n] ConnectFour.new.turn = Pawn.Red ∨
      Pawn.switch^[n] ConnectFour.new.turn = Pawn.Blue) := by
  refine ⟨⟨rfl, rfl, rfl⟩, fun p => by cases p <;> rfl, fun n => ?_⟩
  induction n with
  | zero => exact Or.inl rfl
  | succ m ih =>
    rw [Function.iterate_succ_apply']
    rcases ih with h | h
    · rw [h]; exact Or.inr rfl
    · rw [h]; exact Or.inl rfl

/-- C6: for an in-range column, `get_empty_spot` returns a row exactly when the
column has an empty cell; the returned row is in bounds, empty, and every row
strictly below it in the column is occupied (bottom-up scan); it returns `none`
iff every row of the column is occupied.  The operation is a pure query on the
state. -/
theorem claim_C6_get_empty_spot (g : ConnectFour) (col : Nat) (hcol : col < MAX_COL) :
    (∀ r, g.get_empty_spot col = some r →
      r < MAX_ROW ∧ g.board r col = Pawn.White ∧
        ∀ r', r < r' → r' < MAX_ROW → g.board r' col ≠ Pawn.White) ∧
    (g.get_empty_spot col = none ↔ ∀ r < MAX_ROW, g.board r col ≠ Pawn.White) :=
  ⟨fun _ hr => get_empty_spot_some hr, get_empty_spot_none⟩

/-- C6 witness: on the fresh board, column 0 reports row 5 (the bottom row),
which is empty; on the filled column of `demoFullColumnState` it reports
`none`. -/
theorem claim_C6_witness :
    ConnectFour.new.get_empty_spot 0 = some 5 ∧ ConnectFour.new.board 5 0 = Pawn.White ∧
      demoFullColumnState.get_empty_spot 0 = none := by
  have h1 := claim_C6_get_empty_spot ConnectFour.new 0 (by decide)
  have h2 := claim_C6_get_empty_spot demoFullColumnState 0 (by decide)
  refine ⟨by rfl, (h1.1 5 (by rfl)).2.1, h2.2.mpr ?_⟩
  decide

/-- C2: the claim says every column index outside `[0, 7)` is rejected as an
out-of-range error, recovered by re-prompt, never fatal.  The code rejects only
`col > 7`: the out-of-range index 7 passes `validate_column_number` and then
aborts the process in `get_empty_spot`'s `assert!(col < MAX_COL)`.  Indices
8 and above are indeed rejected and recovered with the state unchanged. -/
theorem claim_C2_bug :
    ConnectFour.validate_column_number MAX_COL = Except.ok MAX_COL ∧
    ConnectFour.run_step ConnectFour.new MAX_COL =
      Except.error ConnectFour.Panic.assertColOutOfRange ∧
    ConnectFour.run_step ConnectFour.new (MAX_COL + 1) = Except.ok ConnectFour.new :=
  ⟨rfl, rfl, rfl⟩

/-- C3 counterexample: `demoVerticalState` is over (red connected), yet
`place` at the in-bounds cell `(2, 1)` does not fail: it returns a state with
the move appended and the cell overwritten. -/
theorem claim_C3_counterexample :
    ConnectFour.is_over demoVerticalState = true ∧
    demoVerticalState.place_checked 2 1 = some (demoVerticalState.place 2 1) ∧
    (demoVerticalState.place 2 1).moves_stack ≠ demoVerticalState.moves_stack ∧
    demoVerticalState.board 2 1 = Pawn.White ∧
    (demoVerticalState.place 2 1).board 2 1 = Pawn.Blue := by
  exact ⟨by decide, rfl, by decide, by decide, by decide⟩

/-- C3 amended: `place` performs no game-over check.  Called in a game-over
state with in-bounds coordinates it does not fail (no panic): it appends the
move to the log and writes the current turn into the cell, mutating the
state. -/
theorem claim_C3_amended (g : ConnectFour) (row col : Nat) (hrow : row < MAX_ROW)
    (hcol : col < MAX_COL) (hover : g.is_over = true) :
    g.place_checked row col = some (g.place row col) ∧
    (g.place row col).moves_stack = g.moves_stack ++ [(g.turn, (row, col))] ∧
    (g.place row col).board row col = g.turn := by
  refine ⟨?_, rfl, setCell_self _ _ _ _⟩
  unfold ConnectFour.place_checked
  rw [if_pos ⟨hrow, hcol⟩]

/-- C3 amended witness: the game-over state `demoVerticalState`, place at
`(2, 3)`. -/
theorem claim_C3_witness :
    ConnectFour.is_over demoVerticalState = true ∧
    (demoVerticalState.place_checked 2 3 = some (demoVerticalState.place 2 3) ∧
      (demoVerticalState.place 2 3).moves_stack =
        demoVerticalState.moves_stack ++ [(demoVerticalState.turn, (2, 3))] ∧
      (demoVerticalState.place 2 3).board 2 3 = demoVerticalState.turn) :=
  ⟨by decide, claim_C3_amended demoVerticalState 2 3 (by decide) (by decide) (by decide)⟩

/-- C1 counterexample: the state reached by the session protocol after the
forty-two moves of `demoFullBoard` has `is_connected = true` and
`is_draw = true` simultaneously: `place` recomputes `is_draw` as bare
`is_full`, not as "full and not connected". -/
theorem claim_C1_counterexample :
    ConnectFour.Reachable demoFullBoardState ∧
    demoFullBoardState.is_connected = true ∧ demoFullBoardState.is_draw = true :=
  ⟨reachable_of_apply_moves (l := demoFullBoard) (g := ConnectFour.new) (by rfl)
    ConnectFour.Reachable.init,
    by decide, by decide⟩

/-- C1 amended: after every call to `place` the draw flag equals "the grid is
fully occupied", with no exclusion of the connected flag; consequently the two
flags are simultaneously true in the reachable state in which the final
placement both fills the grid and completes a four-in-a-row. -/
theorem claim_C1_amended (g : ConnectFour) (row col : Nat) :
    (g.place row col).is_draw = true ↔ specFull (g.place row col).board :=
  is_full_iff _

/-- C5 counterexample: in the reachable, not-over state `demoFullColumnState`
the chosen column 0 is full, and the session loop body aborts with the
`.unwrap()` panic instead of re-prompting. -/
theorem claim_C5_counterexample :
    ConnectFour.is_over demoFullColumnState = false ∧
    demoFullColumnState.get_empty_spot 0 = none ∧
    ConnectFour.run_step demoFullColumnState 0 =
      Except.error ConnectFour.Panic.unwrapNoneEmptySpot :=
  ⟨by decide, by rfl, by rfl⟩

/-- C5 amended: whenever the chosen in-range column is full, the session loop
body panics on the `.unwrap()` of `get_empty_spot` (fatal, no recovery); no
placement occurs and the turn is not toggled, since the step produces no
successor state. -/
theorem claim_C5_amended (g : ConnectFour) (col : Nat) (hcol : col < MAX_COL)
    (hfull : g.get_empty_spot col = none) :
    ConnectFour.run_step g col = Except.error ConnectFour.Panic.unwrapNoneEmptySpot := by
  have h1 : ¬ col > MAX_COL := by omega
  unfold ConnectFour.run_step ConnectFour.validate_column_number
  simp only [if_neg h1, if_pos hcol, hfull]

/-- C5 amended witness: `demoFullColumnState`, column 0. -/
theorem claim_C5_witness :
    (0 : Nat) < MAX_COL ∧ demoFullColumnState.get_empty_spot 0 = none ∧
    ConnectFour.run_step demoFullColumnState 0 =
      Except.error ConnectFour.Panic.unwrapNoneEmptySpot :=
  ⟨by decide, by rfl, claim_C5_amended demoFullColumnState 0 (by decide) (by rfl)⟩

/-- C4: for every board, mover and in-bounds anchor, `is_four_connected`
returns true iff one of the four clipped lines through the anchor — the full
row, the full column, the two bound-clipped diagonals — holds a window of four
consecutive cells all equal to the mover's colour. -/
theorem claim_C4_connectivity (g : ConnectFour) (row col : Nat)
    (hrow : row < MAX_ROW) (hcol : col < MAX_COL) :
    g.is_four_connected row col = true ↔
      ∃ l ∈ specLines g.board row col, ∃ s, winWindowAt g.turn l s :=
  is_four_connected_iff_lines g hrow hcol

/-- C4 witness: the winning state `demoWinState` anchored at `(2, 0)`. -/
theorem claim_C4_witness :
    ConnectFour.is_four_connected demoWinState 2 0 = true ∧
    (ConnectFour.is_four_connected demoWinState 2 0 = true ↔
      ∃ l ∈ specLines demoWinState.board 2 0, ∃ s, winWindowAt demoWinState.turn l s) :=
  ⟨by decide, claim_C4_connectivity demoWinState 2 0 (by decide) (by decide)⟩

/-- C7: from any reachable (hence connection-free while not over) state, for a
valid placement at an in-bounds empty cell, the `is_connected` flag computed by
the anchored check of `place` agrees with the full-grid four-in-a-row scan of
the resulting board, and the `is_draw` flag agrees with full-grid occupancy. -/
theorem claim_C7_refinement (g : ConnectFour) (row col : Nat)
    (hreach : ConnectFour.Reachable g) (hrow : row < MAX_ROW) (hcol : col < MAX_COL)
    (hempty : g.board row col = Pawn.White) (hover : g.is_over = false) :
    ((g.place row col).is_connected = true ↔ globalConnected (g.place row col).board) ∧
    ((g.place row col).is_draw = true ↔ specFull (g.place row col).board) := by
  constructor
  · have hturn := reach_turn hreach
    have hconn : g.is_connected = false := (Bool.or_eq_false_iff.mp hover).1
    have hpre : ¬ globalConnected g.board := fun hg => by
      rw [(reach_connected hreach).mpr hg] at hconn
      cases hconn
    exact anchored_iff_global (g := g.place row col) rfl hrow hcol hturn hpre
  · exact is_full_iff _

/-- C7 witness: the reachable state `demoMidState` and the valid placement at
`(2, 0)`. -/
theorem claim_C7_witness :
    ((demoMidState.place 2 0).is_connected = true ↔
      globalConnected (demoMidState.place 2 0).board) ∧
    ((demoMidState.place 2 0).is_draw = true ↔ specFull (demoMidState.place 2 0).board) :=
  claim_C7_refinement demoMidState 2 0
    (reachable_of_apply_moves (l := [0, 1, 0, 1, 0, 1]) (g := ConnectFour.new) (by rfl)
      ConnectFour.Reachable.init)
    (by decide) (by decide) (by decide) (by decide)

/-- C8: in every state reachable through the session protocol, the cell counts
of the two players differ by at most 1. -/
theorem claim_C8_alternation (g : ConnectFour) (h : ConnectFour.Reachable g) :
    countCells g.board Pawn.Red ≤ countCells g.board Pawn.Blue + 1 ∧
    countCells g.board Pawn.Blue ≤ countCells g.board Pawn.Red + 1 := by
  have hc := reach_counts h
  rcases reach_turn h with he | he
  · rw [hc.1 he]; omega
  · rw [hc.2 he]; omega

/-- C8 witness: the reachable state `demoVerticalState` has 4 red and 3 blue
cells, within the invariant. -/
theorem claim_C8_witness :
    countCells demoVerticalState.board Pawn.Red = 4 ∧
    countCells demoVerticalState.board Pawn.Blue = 3 ∧
    (countCells demoVerticalState.board Pawn.Red ≤
        countCells demoVerticalState.board Pawn.Blue + 1 ∧
      countCells demoVerticalState.board Pawn.Blue ≤
        countCells demoVerticalState.board Pawn.Red + 1) :=
  ⟨by decide, by decide,
    claim_C8_alternation demoVerticalState
      (reachable_of_apply_moves (l := demoVertical) (g := ConnectFour.new) (by rfl)
        ConnectFour.Reachable.init)⟩

/-- C9: in every reachable state with the connected flag set, the move log is
nonempty and the winner announced by the session loop is exactly the player of
its most recent entry. -/
theorem claim_C9_winner (g : ConnectFour) (h : ConnectFour.Reachable g)
    (hc : g.is_connected = true) :
    ∃ m, g.moves_stack.getLast? = some m ∧ ConnectFour.announce_winner g = some m.1 := by
  have hne := reach_stack_ne h hc
  obtain ⟨m, hm⟩ := Option.ne_none_iff_exists'.mp (mt List.getLast?_eq_none_iff.mp hne)
  refine ⟨m, hm, ?_⟩
  unfold ConnectFour.announce_winner
  rw [if_pos hc, hm]
  rfl

/-- C9 witness: after `demoVertical`, red is announced, matching the last log
entry `(Red, (2, 0))`. -/
theorem claim_C9_witness :
    ConnectFour.announce_winner demoVerticalState = some Pawn.Red ∧
    ∃ m, demoVerticalState.moves_stack.getLast? = some m ∧
      ConnectFour.announce_winner demoVerticalState = some m.1 :=
  ⟨by decide,
    claim_C9_winner demoVerticalState
      (reachable_of_apply_moves (l := demoVertical) (g := ConnectFour.new) (by rfl)
        ConnectFour.Reachable.init)
      (by decide)⟩

end Claims
